import Mathlib

/-
Shallow embedding of the `Semaphore` class of mogoe1/semaphore
(src/Semaphore.ts).

Modelling decisions, all taken from the source:

* The shared cell is one element of an `Int32Array` backed by a
  `SharedArrayBuffer`.  A typed-array handle is modelled as a flag saying
  whether its buffer is a `SharedArrayBuffer` plus the list of 32-bit
  elements it addresses.  Element values are integers in
  `[-2^31, 2^31)`; every store through `Atomics.compareExchange` and
  `DataView.setInt32` converts its operand with JavaScript's `ToInt32`,
  modelled by `toInt32`.
* JavaScript numbers used as plain counters (`num`, `_acquiredPermits`)
  are modelled as exact integers (`Int`), which is faithful in the safe
  integer range the library operates in.
* Each completed call is modelled at its linearization point, the
  successful `Atomics.compareExchange`: a call that would throw is an
  `error` outcome carrying the unchanged state, a call whose
  `Atomics.wait` / `Atomics.waitAsync` never returns (no permits ever
  become available in the modelled run) is a `blocked` outcome, and a
  successful call performs its read-modify-write atomically.
* The platform is little-endian (as all mainstream JavaScript engines
  are), so the `Int32Array` view over the buffer written by
  `DataView.setInt32(0, permits, true)` reassembles the same four
  little-endian bytes.
-/

/-- JavaScript's ToInt32 conversion: reduce an integer modulo 2^32 into
the signed range `[-2147483648, 2147483648)`. -/
def toInt32 (n : Int) : Int :=
  (n + 2147483648) % 4294967296 - 2147483648

/-- A handle to a typed `Int32Array` view: whether its backing buffer is a
`SharedArrayBuffer`, and the 32-bit elements it addresses. -/
structure Int32ArrayHandle where
  sharedBuffer : Bool
  data : List Int
  deriving DecidableEq

/-- The `Semaphore` object: the local bookkeeping counter
`_acquiredPermits` and the `Int32Array` handle `_int32Array`. -/
structure Semaphore where
  acquiredPermits : Int
  int32Array : Int32ArrayHandle
  deriving DecidableEq

/-- The error kinds the class can throw, as named by the specification's
error taxonomy (§7). -/
inductive SemError where
  | invalidBackingStore
  | invalidLength
  | invalidArgument
  | overRelease
  deriving DecidableEq

/-- Result of one call on a `Semaphore` instance: success with the new
state, a synchronous throw leaving the state as it was, or a call that
stays blocked/suspended because not enough permits are available. -/
inductive Outcome where
  | ok (s : Semaphore)
  | error (e : SemError) (s : Semaphore)
  | blocked (s : Semaphore)
  deriving DecidableEq

/-- `Atomics.load(this._int32Array, 0)`: read element 0 of the view. -/
def Semaphore.load (s : Semaphore) : Int :=
  s.int32Array.data.getD 0 0

/-- Store `v` into element 0 of the view (the write performed by a
successful `Atomics.compareExchange(this._int32Array, 0, _, v)`). -/
def Semaphore.store (s : Semaphore) (v : Int) : Semaphore :=
  { s with int32Array := { s.int32Array with data := s.int32Array.data.set 0 v } }

/-- Accessor `availablePermits`: `Atomics.load(this._int32Array, 0)`. -/
def Semaphore.availablePermits (s : Semaphore) : Int :=
  s.load

/-- The constructor `new Semaphore(int32Array)`: reject a view whose
buffer is not a `SharedArrayBuffer`, then a view whose length is not one;
otherwise store the handle and initialize `_acquiredPermits` to 0. -/
def makeSemaphore (int32Array : Int32ArrayHandle) : Except SemError Semaphore :=
  if int32Array.sharedBuffer = false then .error .invalidBackingStore
  else if int32Array.data.length ≠ 1 then .error .invalidLength
  else .ok { acquiredPermits := 0, int32Array := int32Array }

/-- `acquire(num)`: throw on `num ≤ 0`; otherwise wait until the cell
holds at least `num`, then CAS the cell from `available` to
`available - num` and add `num` to `_acquiredPermits`. -/
def Semaphore.acquire (num : Int) (s : Semaphore) : Outcome :=
  if num ≤ 0 then .error .invalidArgument s
  else if s.load < num then .blocked s
  else .ok { s.store (toInt32 (s.load - num)) with
             acquiredPermits := s.acquiredPermits + num }

/-- `acquireAsync(num)`: same CAS loop as `acquire`, suspending through
`Atomics.waitAsync` instead of blocking.  Note: the source performs no
validation of `num` here. -/
def Semaphore.acquireAsync (num : Int) (s : Semaphore) : Outcome :=
  if s.load < num then .blocked s
  else .ok { s.store (toInt32 (s.load - num)) with
             acquiredPermits := s.acquiredPermits + num }

/-- `release(num)`: throw when `num > _acquiredPermits`; otherwise CAS
the cell from `available` to `available + num`, subtract `num` from
`_acquiredPermits` and notify waiters. -/
def Semaphore.release (num : Int) (s : Semaphore) : Outcome :=
  if s.acquiredPermits < num then .error .overRelease s
  else .ok { s.store (toInt32 (s.load + num)) with
             acquiredPermits := s.acquiredPermits - num }

/-- `new DataView(sab).setInt32(0, value, true)`: write the four
little-endian bytes of `ToInt32(value)` (equivalently of
`value mod 2^32`) at offsets 0..3. -/
def setInt32LE (bytes : List Nat) (value : Int) : List Nat :=
  let u := (value % 4294967296).toNat
  (((bytes.set 0 (u % 256)).set 1 (u / 256 % 256)).set 2
      (u / 65536 % 256)).set 3 (u / 16777216 % 256)

/-- Element 0 of `new Int32Array(sab)` over a 4-byte buffer on a
little-endian platform: reassemble the four bytes and interpret the
32-bit pattern as signed. -/
def int32FromBytesLE (bytes : List Nat) : Int :=
  let u : Nat := bytes.getD 0 0 + 256 * bytes.getD 1 0 +
      65536 * bytes.getD 2 0 + 16777216 * bytes.getD 3 0
  if u < 2147483648 then (u : Int) else (u : Int) - 4294967296

/-- `Semaphore.fromCapacity(permits)`: allocate a fresh 4-byte
`SharedArrayBuffer` (zero-initialized), write `permits` into it with
`setInt32(0, permits, true)`, and construct a `Semaphore` over the
`Int32Array` view of that buffer. -/
def fromCapacity (permits : Int) : Except SemError Semaphore :=
  let sab := List.replicate 4 0
  let bytes := setInt32LE sab permits
  makeSemaphore { sharedBuffer := true, data := [int32FromBytesLE bytes] }

/- Range and congruence facts about `toInt32`. -/

lemma toInt32_eq_self (n : Int) (h0 : -2147483648 ≤ n)
    (h1 : n < 2147483648) : toInt32 n = n := by
  unfold toInt32; omega

lemma toInt32_emod (n : Int) :
    toInt32 n % 4294967296 = n % 4294967296 := by
  unfold toInt32; omega

lemma toInt32_lb (n : Int) : -2147483648 ≤ toInt32 n := by
  unfold toInt32; omega

lemma toInt32_ub (n : Int) : toInt32 n < 2147483648 := by
  unfold toInt32; omega

/-- C7: for every integer `num ≤ 0`, `acquire(num)` raises
`InvalidArgument` synchronously, with no side effects on the shared cell
or on the instance's `acquiredPermits` (the outcome carries the state
unchanged). -/
theorem acquire_invalidArgument (s : Semaphore) (num : Int)
    (h : num ≤ 0) :
    Semaphore.acquire num s = .error .invalidArgument s := by
  unfold Semaphore.acquire
  rw [if_pos h]

theorem acquire_invalidArgument_witness :
    Semaphore.acquire 0 ⟨0, ⟨true, [5]⟩⟩ =
      .error .invalidArgument ⟨0, ⟨true, [5]⟩⟩ :=
  acquire_invalidArgument ⟨0, ⟨true, [5]⟩⟩ 0 (by decide)

/-- C5: for every `num` with `num > acquiredPermits`, `release(num)`
raises `OverRelease` synchronously, leaving both the local
`acquiredPermits` and the shared cell unchanged. -/
theorem release_overRelease (s : Semaphore) (num : Int)
    (h : s.acquiredPermits < num) :
    Semaphore.release num s = .error .overRelease s := by
  unfold Semaphore.release
  rw [if_pos h]

theorem release_overRelease_witness :
    Semaphore.release 3 ⟨2, ⟨true, [5]⟩⟩ =
      .error .overRelease ⟨2, ⟨true, [5]⟩⟩ :=
  release_overRelease ⟨2, ⟨true, [5]⟩⟩ 3 (by decide)

/-- C1: the claim says `acquireAsync(num)` validates `num ≤ 0` exactly as
`acquire` does.  The source has no such check: on an instance with
`availablePermits = 5` and `acquiredPermits = 2`, the call
`acquireAsync(-1)` resolves successfully, the cell grows to 6 and
`acquiredPermits` drops to 1 — no `InvalidArgument`, and side effects on
both the shared cell and the local counter. -/
theorem acquireAsync_skips_validation :
    Semaphore.acquireAsync (-1) ⟨2, ⟨true, [5]⟩⟩ = .ok ⟨1, ⟨true, [6]⟩⟩ := by
  decide

/-- C6: the claim says `acquiredPermits` is never negative.  Starting
from `fromCapacity(0)` (cell 0, `acquiredPermits` 0), the single call
`acquireAsync(-1)` succeeds because `acquireAsync` does not validate its
argument, leaving `acquiredPermits = -1 < 0`. -/
theorem acquiredPermits_negative_evidence :
    fromCapacity 0 = .ok ⟨0, ⟨true, [0]⟩⟩ ∧
    Semaphore.acquireAsync (-1) ⟨0, ⟨true, [0]⟩⟩ = .ok ⟨-1, ⟨true, [1]⟩⟩ ∧
    (Semaphore.mk (-1) ⟨true, [1]⟩).acquiredPermits < 0 :=
  ⟨rfl, by decide, by decide⟩

/-- C8: the constructor rejects a handle whose buffer is not a
`SharedArrayBuffer` with `InvalidBackingStore`, rejects a shared-buffer
handle whose length is not exactly one with `InvalidLength`, and on
success returns an instance with `acquiredPermits = 0` holding the given
handle with its cell untouched. -/
theorem makeSemaphore_validation (a : Int32ArrayHandle) :
    (a.sharedBuffer = false → makeSemaphore a = .error .invalidBackingStore) ∧
    (a.sharedBuffer = true → a.data.length ≠ 1 →
        makeSemaphore a = .error .invalidLength) ∧
    (a.sharedBuffer = true → a.data.length = 1 →
        makeSemaphore a = .ok { acquiredPermits := 0, int32Array := a }) := by
  unfold makeSemaphore
  refine ⟨fun h1 => ?_, fun h1 h2 => ?_, fun h1 h2 => ?_⟩
  · rw [if_pos h1]
  · rw [if_neg (by simp [h1]), if_pos h2]
  · rw [if_neg (by simp [h1]), if_neg (by simp [h2])]

theorem makeSemaphore_validation_witness :
    makeSemaphore ⟨true, [7]⟩ =
      .ok { acquiredPermits := 0, int32Array := ⟨true, [7]⟩ } :=
  (makeSemaphore_validation ⟨true, [7]⟩).2.2 rfl rfl

/- The little-endian byte write of `fromCapacity` reads back as the same
value through the aligned `Int32Array` view. -/

lemma setInt32LE_replicate (p : Int) :
    setInt32LE (List.replicate 4 0) p =
      [(p % 4294967296).toNat % 256,
       (p % 4294967296).toNat / 256 % 256,
       (p % 4294967296).toNat / 65536 % 256,
       (p % 4294967296).toNat / 16777216 % 256] := rfl

lemma fromCapacityCell_eq (p : Int) (h0 : 0 ≤ p) (h1 : p < 2147483648) :
    int32FromBytesLE (setInt32LE (List.replicate 4 0) p) = p := by
  have hm : p % 4294967296 = p := Int.emod_eq_of_lt h0 (by omega)
  rw [setInt32LE_replicate, hm]
  unfold int32FromBytesLE
  simp only [List.getD_cons_zero, List.getD_cons_succ]
  have hq : p.toNat % 256 + 256 * (p.toNat / 256 % 256) +
      65536 * (p.toNat / 65536 % 256) +
      16777216 * (p.toNat / 16777216 % 256) = p.toNat := by omega
  rw [hq, if_pos (by omega)]
  omega

/-- C9: for every non-negative `permits` representable as a signed 32-bit
value, `fromCapacity(permits)` succeeds and yields a semaphore whose
`availablePermits` accessor reads back exactly `permits` through the
`Int32Array` view of the little-endian bytes written by `setInt32`, and
whose `acquiredPermits` is 0. -/
theorem fromCapacity_roundtrip (p : Int) (h0 : 0 ≤ p)
    (h1 : p < 2147483648) :
    ∃ sem, fromCapacity p = .ok sem ∧
      sem.availablePermits = p ∧ sem.acquiredPermits = 0 := by
  refine ⟨⟨0, ⟨true, [p]⟩⟩, ?_, rfl, rfl⟩
  show makeSemaphore
      ⟨true, [int32FromBytesLE (setInt32LE (List.replicate 4 0) p)]⟩ = _
  rw [fromCapacityCell_eq p h0 h1]
  rfl

theorem fromCapacity_roundtrip_witness :
    ∃ sem, fromCapacity 5 = .ok sem ∧
      sem.availablePermits = 5 ∧ sem.acquiredPermits = 0 :=
  fromCapacity_roundtrip 5 (by decide) (by decide)

/-- C4 (amended: the release postcondition on the cell holds provided
the updated value `v + num` still fits in the signed 32-bit range —
otherwise the store wraps through ToInt32, see
`release_wrap_counterexample`): postconditions of the successful
operations, for `num ≥ 1` on a cell holding the 32-bit value `v`.  A
successful `acquire(num)` or `acquireAsync(num)` (possible exactly when
`num ≤ v`) moves the cell to `v - num` and `acquiredPermits` up by
`num`; a successful `release(num)` (with `num ≤ acquiredPermits`) moves
`acquiredPermits` down by `num` and, when `v + num < 2^31`, the cell to
exactly `v + num`. -/
theorem successful_ops_postconditions (s : Semaphore) (num v : Int)
    (hdata : s.int32Array.data = [v])
    (hlo : -2147483648 ≤ v) (hhi : v < 2147483648) (hnum : 1 ≤ num) :
    (num ≤ v → ∃ t, Semaphore.acquire num s = .ok t ∧
        t.availablePermits = s.availablePermits - num ∧
        t.acquiredPermits = s.acquiredPermits + num) ∧
    (num ≤ v → ∃ t, Semaphore.acquireAsync num s = .ok t ∧
        t.availablePermits = s.availablePermits - num ∧
        t.acquiredPermits = s.acquiredPermits + num) ∧
    (num ≤ s.acquiredPermits → v + num < 2147483648 →
      ∃ t, Semaphore.release num s = .ok t ∧
        t.availablePermits = s.availablePermits + num ∧
        t.acquiredPermits = s.acquiredPermits - num) := by
  obtain ⟨a, sh, data⟩ := s
  dsimp only at hdata
  subst hdata
  refine ⟨fun hle => ?_, fun hle => ?_, fun hle hrange => ?_⟩
  · refine ⟨⟨a + num, ⟨sh, [v - num]⟩⟩, ?_, rfl, rfl⟩
    unfold Semaphore.acquire Semaphore.load Semaphore.store
    simp only [List.getD_cons_zero, List.set_cons_zero]
    rw [if_neg (by omega), if_neg (by omega),
      toInt32_eq_self _ (by omega) (by omega)]
  · refine ⟨⟨a + num, ⟨sh, [v - num]⟩⟩, ?_, rfl, rfl⟩
    unfold Semaphore.acquireAsync Semaphore.load Semaphore.store
    simp only [List.getD_cons_zero, List.set_cons_zero]
    rw [if_neg (by omega), toInt32_eq_self _ (by omega) (by omega)]
  · have hle2 : num ≤ a := hle
    refine ⟨⟨a - num, ⟨sh, [v + num]⟩⟩, ?_, rfl, rfl⟩
    unfold Semaphore.release Semaphore.load Semaphore.store
    simp only [List.getD_cons_zero, List.set_cons_zero]
    rw [if_neg (by omega), toInt32_eq_self _ (by omega) (by omega)]

theorem successful_ops_postconditions_witness :
    ∃ t, Semaphore.acquire 1 ⟨0, ⟨true, [3]⟩⟩ = .ok t ∧
      t.availablePermits = (Semaphore.mk 0 ⟨true, [3]⟩).availablePermits - 1 ∧
      t.acquiredPermits = (Semaphore.mk 0 ⟨true, [3]⟩).acquiredPermits + 1 :=
  (successful_ops_postconditions ⟨0, ⟨true, [3]⟩⟩ 1 3 rfl (by decide)
    (by decide) (by decide)).1 (by decide)

/-- C4 as stated is false: the cell is a shared int32 with no owner, so
an instance can hold `acquiredPermits = 1` while the cell holds
`2^31 - 1` (for example after `fromCapacity(2^31 - 1)`, an `acquire(1)`
by this instance and a `release` by another cooperating instance, or
directly through the unvalidated `acquireAsync`).  There `release(1)`
succeeds — its only guard is `num ≤ acquiredPermits` — but the CAS
stores `ToInt32(2^31 - 1 + 1) = -2^31`: the cell wraps instead of
increasing by exactly 1. -/
theorem release_wrap_counterexample :
    Semaphore.release 1 ⟨1, ⟨true, [2147483647]⟩⟩ =
      .ok ⟨0, ⟨true, [-2147483648]⟩⟩ ∧
    (Semaphore.mk 0 ⟨true, [-2147483648]⟩).availablePermits ≠
      (Semaphore.mk 1 ⟨true, [2147483647]⟩).availablePermits + 1 := by
  decide

/-- C10 (amended: the `+num` change of the cell is exact provided
`v + num` stays in the signed 32-bit range — outside it the store is
`ToInt32(v + num)`, see `release_negative_wrap_counterexample`):
`release(num)` raises `OverRelease` exactly when
`num > acquiredPermits`.  For every integer `num ≤ acquiredPermits` —
including `num = 0` and negative `num` — the call succeeds, moving the
cell by `+num` and `acquiredPermits` by `-num`; in particular a
negative `num` removes permits from the cell and increases
`acquiredPermits`. -/
theorem release_succeeds_iff_within_acquired (s : Semaphore) (num v : Int)
    (hdata : s.int32Array.data = [v])
    (hlo : -2147483648 ≤ v + num) (hhi : v + num < 2147483648) :
    (num ≤ s.acquiredPermits →
      ∃ t, Semaphore.release num s = .ok t ∧
        t.availablePermits = s.availablePermits + num ∧
        t.acquiredPermits = s.acquiredPermits - num) ∧
    (s.acquiredPermits < num →
      Semaphore.release num s = .error .overRelease s) := by
  obtain ⟨a, sh, data⟩ := s
  dsimp only at hdata
  subst hdata
  refine ⟨fun hle => ?_, fun hgt => ?_⟩
  · have hle2 : num ≤ a := hle
    refine ⟨⟨a - num, ⟨sh, [v + num]⟩⟩, ?_, rfl, rfl⟩
    unfold Semaphore.release Semaphore.load Semaphore.store
    simp only [List.getD_cons_zero, List.set_cons_zero]
    rw [if_neg (by omega), toInt32_eq_self _ (by omega) (by omega)]
  · unfold Semaphore.release
    rw [if_pos hgt]

theorem release_succeeds_iff_within_acquired_witness :
    ∃ t, Semaphore.release (-3) ⟨0, ⟨true, [10]⟩⟩ = .ok t ∧
      t.availablePermits = (Semaphore.mk 0 ⟨true, [10]⟩).availablePermits + (-3) ∧
      t.acquiredPermits = (Semaphore.mk 0 ⟨true, [10]⟩).acquiredPermits - (-3) :=
  (release_succeeds_iff_within_acquired ⟨0, ⟨true, [10]⟩⟩ (-3) 10 rfl
    (by decide) (by decide)).1 (by decide)

/-- C10 as stated is false at the edge of the int32 range: on an
instance with `acquiredPermits = 0` over a cell holding `-2^31` (the
cell `fromCapacity(2^31)` creates), `release(-1)` succeeds — `-1 ≤ 0`
passes the only guard — but the CAS stores `ToInt32(-2^31 - 1) =
2^31 - 1`: the cell wraps instead of changing by `+(-1)`. -/
theorem release_negative_wrap_counterexample :
    Semaphore.release (-1) ⟨0, ⟨true, [-2147483648]⟩⟩ =
      .ok ⟨1, ⟨true, [2147483647]⟩⟩ ∧
    (Semaphore.mk 1 ⟨true, [2147483647]⟩).availablePermits ≠
      (Semaphore.mk 0 ⟨true, [-2147483648]⟩).availablePermits + (-1) := by
  decide

/- Multi-instance model: several `Semaphore` instances sharing one cell.
Each successful call is one atomic transition at its linearization point
(the successful `Atomics.compareExchange`), which is how an interleaved
execution of the lock-free loops is serialized. -/

/-- One completed call: which instance performed it and with which
argument. -/
inductive Op where
  | acquire (i : Nat) (num : Int)
  | acquireAsync (i : Nat) (num : Int)
  | release (i : Nat) (num : Int)
  deriving DecidableEq

/-- A cooperating system: the shared cell plus the `_acquiredPermits`
counter of every instance (instance `i` is entry `i` of `acquired`). -/
structure Config where
  cell : Int
  acquired : List Int
  deriving DecidableEq

/-- The `_acquiredPermits` counter of instance `i`. -/
def Config.acqOf (c : Config) (i : Nat) : Int := c.acquired.getD i 0

/-- One successful call as a transition, exactly as guarded in the
source: `acquire` requires its argument check `1 ≤ num` and availability
`num ≤ cell`; `acquireAsync` has the same loop without the argument
check; `release` requires the local check `num ≤ acquiredPermits` of the
calling instance.  Stores go through `toInt32`, as
`Atomics.compareExchange` does.  `none` means instance `i` does not
exist or the call would throw or stay blocked (so it is not a
successful call). -/
def stepOp (c : Config) : Op → Option Config
  | .acquire i num =>
    if i < c.acquired.length ∧ 1 ≤ num ∧ num ≤ c.cell then
      some ⟨toInt32 (c.cell - num), c.acquired.set i (c.acqOf i + num)⟩
    else none
  | .acquireAsync i num =>
    if i < c.acquired.length ∧ num ≤ c.cell then
      some ⟨toInt32 (c.cell - num), c.acquired.set i (c.acqOf i + num)⟩
    else none
  | .release i num =>
    if i < c.acquired.length ∧ num ≤ c.acqOf i then
      some ⟨toInt32 (c.cell + num), c.acquired.set i (c.acqOf i - num)⟩
    else none

/-- Run a sequence of calls; `some` exactly when every call succeeds. -/
def runOps (c : Config) : List Op → Option Config
  | [] => some c
  | op :: ops => (stepOp c op).bind fun c2 => runOps c2 ops

/-- A call is well behaved when its amount is at least one (the claim's
"each with num ≥ 1"). -/
def wellBehavedOp : Op → Bool
  | .acquire _ num => decide (1 ≤ num)
  | .acquireAsync _ num => decide (1 ≤ num)
  | .release _ num => decide (1 ≤ num)

/-- `k` instances sharing one cell freshly created by
`fromCapacity(c)`: every instance starts with `acquiredPermits = 0`. -/
def initConfig (k : Nat) (c : Int) : Config :=
  ⟨int32FromBytesLE (setInt32LE (List.replicate 4 0) c), List.replicate k 0⟩

/- List bookkeeping lemmas for the invariant proofs. -/

lemma sum_set_getD (l : List Int) (i : Nat) (v : Int) (h : i < l.length) :
    (l.set i v).sum = l.sum - l.getD i 0 + v := by
  induction l generalizing i with
  | nil => simp at h
  | cons x t ih =>
    cases i with
    | zero =>
      simp only [List.set_cons_zero, List.getD_cons_zero, List.sum_cons]
      ring
    | succ n =>
      simp only [List.set_cons_succ, List.getD_cons_succ, List.sum_cons]
      rw [ih n (by simp only [List.length_cons] at h; omega)]
      ring

lemma mem_of_mem_set (l : List Int) (i : Nat) (v x : Int)
    (hx : x ∈ l.set i v) : x = v ∨ x ∈ l := by
  induction l generalizing i with
  | nil => simp [List.set] at hx
  | cons y t ih =>
    cases i with
    | zero =>
      simp only [List.set_cons_zero, List.mem_cons] at hx
      rcases hx with h | h
      · exact Or.inl h
      · exact Or.inr (List.mem_cons_of_mem _ h)
    | succ n =>
      simp only [List.set_cons_succ, List.mem_cons] at hx
      rcases hx with h | h
      · exact Or.inr (by simp [h])
      · rcases ih n h with h2 | h2
        · exact Or.inl h2
        · exact Or.inr (by simp [h2])

lemma getD_nonneg (l : List Int) (i : Nat) (hpos : ∀ x ∈ l, 0 ≤ x) :
    0 ≤ l.getD i 0 := by
  induction l generalizing i with
  | nil => simp
  | cons x t ih =>
    cases i with
    | zero => exact hpos x (by simp)
    | succ n =>
      simp only [List.getD_cons_succ]
      exact ih n fun y hy => hpos y (List.mem_cons_of_mem _ hy)

lemma getD_le_sum (l : List Int) (i : Nat) (hpos : ∀ x ∈ l, 0 ≤ x) :
    l.getD i 0 ≤ l.sum := by
  induction l generalizing i with
  | nil => simp
  | cons x t ih =>
    have ht : 0 ≤ t.sum :=
      List.sum_nonneg fun y hy => hpos y (List.mem_cons_of_mem _ hy)
    have hx : 0 ≤ x := hpos x (by simp)
    cases i with
    | zero =>
      simp only [List.getD_cons_zero, List.sum_cons]
      omega
    | succ n =>
      simp only [List.getD_cons_succ, List.sum_cons]
      have := ih n fun y hy => hpos y (List.mem_cons_of_mem _ hy)
      omega

/- The well-behaved invariant: the cell is non-negative, every local
counter is non-negative, and cell + all outstanding permits = capacity. -/

def ConfigInv (cap : Int) (c : Config) : Prop :=
  0 ≤ c.cell ∧ (∀ x ∈ c.acquired, 0 ≤ x) ∧ c.cell + c.acquired.sum = cap

lemma stepOp_preserves_inv (cap : Int) (hcap : cap < 2147483648)
    (c c2 : Config) (op : Op) (hwb : wellBehavedOp op = true)
    (hinv : ConfigInv cap c) (hstep : stepOp c op = some c2) :
    ConfigInv cap c2 := by
  obtain ⟨hcell, hpos, hsum⟩ := hinv
  have hsnn : 0 ≤ c.acquired.sum := List.sum_nonneg hpos
  cases op with
  | acquire i num =>
    simp only [wellBehavedOp, decide_eq_true_eq] at hwb
    simp only [stepOp] at hstep
    split at hstep
    case isFalse => simp at hstep
    case isTrue h =>
      obtain ⟨hi, h1, h2⟩ := h
      injection hstep with he
      subst he
      have hgd : 0 ≤ c.acquired.getD i 0 := getD_nonneg _ _ hpos
      have htoi : toInt32 (c.cell - num) = c.cell - num :=
        toInt32_eq_self _ (by omega) (by omega)
      refine ⟨?_, ?_, ?_⟩
      · show 0 ≤ toInt32 (c.cell - num)
        omega
      · intro x hx
        rcases mem_of_mem_set _ _ _ _ hx with h3 | h3
        · simp only [Config.acqOf] at h3
          omega
        · exact hpos x h3
      · show toInt32 (c.cell - num) +
            (c.acquired.set i (c.acqOf i + num)).sum = cap
        rw [sum_set_getD _ _ _ hi]
        simp only [Config.acqOf]
        omega
  | acquireAsync i num =>
    simp only [wellBehavedOp, decide_eq_true_eq] at hwb
    simp only [stepOp] at hstep
    split at hstep
    case isFalse => simp at hstep
    case isTrue h =>
      obtain ⟨hi, h2⟩ := h
      injection hstep with he
      subst he
      have hgd : 0 ≤ c.acquired.getD i 0 := getD_nonneg _ _ hpos
      have htoi : toInt32 (c.cell - num) = c.cell - num :=
        toInt32_eq_self _ (by omega) (by omega)
      refine ⟨?_, ?_, ?_⟩
      · show 0 ≤ toInt32 (c.cell - num)
        omega
      · intro x hx
        rcases mem_of_mem_set _ _ _ _ hx with h3 | h3
        · simp only [Config.acqOf] at h3
          omega
        · exact hpos x h3
      · show toInt32 (c.cell - num) +
            (c.acquired.set i (c.acqOf i + num)).sum = cap
        rw [sum_set_getD _ _ _ hi]
        simp only [Config.acqOf]
        omega
  | release i num =>
    simp only [wellBehavedOp, decide_eq_true_eq] at hwb
    simp only [stepOp] at hstep
    split at hstep
    case isFalse => simp at hstep
    case isTrue h =>
      obtain ⟨hi, h2⟩ := h
      simp only [Config.acqOf] at h2
      injection hstep with he
      subst he
      have hgd : 0 ≤ c.acquired.getD i 0 := getD_nonneg _ _ hpos
      have hgs : c.acquired.getD i 0 ≤ c.acquired.sum :=
        getD_le_sum _ _ hpos
      have htoi : toInt32 (c.cell + num) = c.cell + num :=
        toInt32_eq_self _ (by omega) (by omega)
      refine ⟨?_, ?_, ?_⟩
      · show 0 ≤ toInt32 (c.cell + num)
        omega
      · intro x hx
        rcases mem_of_mem_set _ _ _ _ hx with h3 | h3
        · simp only [Config.acqOf] at h3
          omega
        · exact hpos x h3
      · show toInt32 (c.cell + num) +
            (c.acquired.set i (c.acqOf i - num)).sum = cap
        rw [sum_set_getD _ _ _ hi]
        simp only [Config.acqOf]
        omega

lemma runOps_preserves (P : Config → Prop) (Q : Op → Prop)
    (hstep : ∀ c op c2, P c → Q op → stepOp c op = some c2 → P c2) :
    ∀ (ops : List Op) (c c2 : Config), P c → (∀ op ∈ ops, Q op) →
      runOps c ops = some c2 → P c2 := by
  intro ops
  induction ops with
  | nil =>
    intro c c2 hp _ hrun
    simp only [runOps] at hrun
    injection hrun with h
    subst h
    exact hp
  | cons op rest ih =>
    intro c c2 hp hq hrun
    simp only [runOps] at hrun
    rcases Option.bind_eq_some.mp hrun with ⟨cmid, h1, h2⟩
    exact ih cmid c2 (hstep c op cmid hp (hq op (by simp)) h1)
      (fun o ho => hq o (by simp [ho])) h2

/-- C2 (amended: the capacity must also be representable as a signed
32-bit value, `0 ≤ c < 2^31`): starting from a cell initialized by
`fromCapacity(c)`, after any sequence of successful `acquire`,
`acquireAsync` and `release` calls — each with `num ≥ 1`, each `release`
within the calling instance's `acquiredPermits` (the guard the source
checks) — by any number `k` of instances sharing the cell, the cell's
value is ≥ 0.  Every prefix of a successful run is itself a successful
run, so this covers every reachable intermediate state. -/
theorem cell_nonneg_of_wellBehaved (k : Nat) (c : Int) (ops : List Op)
    (cfg : Config) (h0 : 0 ≤ c) (h1 : c < 2147483648)
    (hwb : ∀ op ∈ ops, wellBehavedOp op = true)
    (hrun : runOps (initConfig k c) ops = some cfg) :
    0 ≤ cfg.cell := by
  have hinit : ConfigInv c (initConfig k c) := by
    refine ⟨?_, ?_, ?_⟩
    · show 0 ≤ int32FromBytesLE (setInt32LE (List.replicate 4 0) c)
      rw [fromCapacityCell_eq c h0 h1]
      exact h0
    · intro x hx
      rw [List.eq_of_mem_replicate hx]
    · show int32FromBytesLE (setInt32LE (List.replicate 4 0) c) +
          (List.replicate k (0 : Int)).sum = c
      rw [fromCapacityCell_eq c h0 h1]
      simp
  have hfin : ConfigInv c cfg :=
    runOps_preserves (ConfigInv c) (fun op => wellBehavedOp op = true)
      (fun a op b hp hq hs => stepOp_preserves_inv c h1 a b op hq hp hs)
      ops (initConfig k c) cfg hinit hwb hrun
  exact hfin.1

theorem cell_nonneg_of_wellBehaved_witness :
    0 ≤ (Config.mk 2 [0]).cell :=
  cell_nonneg_of_wellBehaved 1 2 [.acquire 0 1, .release 0 1] ⟨2, [0]⟩
    (by decide) (by decide) (by decide) (by decide)

/-- C2 as stated is false: `fromCapacity` writes its argument through
`setInt32`, which converts with ToInt32 (wrap modulo 2^32), so the
non-negative capacity `c = 2^31` initializes the cell to `-2^31 < 0`.
The empty call sequence is a successful well-behaved sequence, and the
cell's value is already negative. -/
theorem fromCapacity_wrap_counterexample :
    runOps (initConfig 1 2147483648) [] = some (initConfig 1 2147483648) ∧
    (initConfig 1 2147483648).cell = -2147483648 :=
  ⟨rfl, by decide⟩

/- Conservation modulo 2^32 holds for arbitrary successful calls (even
ill-behaved amounts), because every store is `toInt32` of the exact
update and the local counters track the exact amounts. -/

def ModInv (cap : Int) (c : Config) : Prop :=
  -2147483648 ≤ c.cell ∧ c.cell < 2147483648 ∧
    (c.cell + c.acquired.sum) % 4294967296 = cap % 4294967296

lemma stepOp_preserves_modInv (cap : Int) (c c2 : Config) (op : Op)
    (hinv : ModInv cap c) (hstep : stepOp c op = some c2) :
    ModInv cap c2 := by
  obtain ⟨hl, hu, hm⟩ := hinv
  cases op with
  | acquire i num =>
    simp only [stepOp] at hstep
    split at hstep
    case isFalse => simp at hstep
    case isTrue h =>
      obtain ⟨hi, h1, h2⟩ := h
      injection hstep with he
      subst he
      refine ⟨toInt32_lb _, toInt32_ub _, ?_⟩
      show (toInt32 (c.cell - num) +
          (c.acquired.set i (c.acqOf i + num)).sum) % 4294967296 =
        cap % 4294967296
      rw [sum_set_getD _ _ _ hi]
      have hc := toInt32_emod (c.cell - num)
      simp only [Config.acqOf]
      omega
  | acquireAsync i num =>
    simp only [stepOp] at hstep
    split at hstep
    case isFalse => simp at hstep
    case isTrue h =>
      obtain ⟨hi, h2⟩ := h
      injection hstep with he
      subst he
      refine ⟨toInt32_lb _, toInt32_ub _, ?_⟩
      show (toInt32 (c.cell - num) +
          (c.acquired.set i (c.acqOf i + num)).sum) % 4294967296 =
        cap % 4294967296
      rw [sum_set_getD _ _ _ hi]
      have hc := toInt32_emod (c.cell - num)
      simp only [Config.acqOf]
      omega
  | release i num =>
    simp only [stepOp] at hstep
    split at hstep
    case isFalse => simp at hstep
    case isTrue h =>
      obtain ⟨hi, h2⟩ := h
      injection hstep with he
      subst he
      refine ⟨toInt32_lb _, toInt32_ub _, ?_⟩
      show (toInt32 (c.cell + num) +
          (c.acquired.set i (c.acqOf i - num)).sum) % 4294967296 =
        cap % 4294967296
      rw [sum_set_getD _ _ _ hi]
      have hc := toInt32_emod (c.cell + num)
      simp only [Config.acqOf]
      omega

/-- C3: round-trip conservation.  For a shared cell initialized to
capacity `C` (a 32-bit cell value) and any number `k` of instances, any
sequence of successful `acquire`/`acquireAsync`/`release` calls in which
every acquired permit is eventually released — the net outstanding
amount over all instances is zero at the end — leaves the cell at
exactly `C`. -/
theorem roundtrip_conservation (k : Nat) (cap : Int) (ops : List Op)
    (cfg : Config) (hlo : -2147483648 ≤ cap) (hhi : cap < 2147483648)
    (hrun : runOps ⟨cap, List.replicate k 0⟩ ops = some cfg)
    (hnet : cfg.acquired.sum = 0) :
    cfg.cell = cap := by
  have hinit : ModInv cap ⟨cap, List.replicate k 0⟩ := by
    refine ⟨hlo, hhi, ?_⟩
    show (cap + (List.replicate k (0 : Int)).sum) % 4294967296 =
      cap % 4294967296
    simp
  have hfin : ModInv cap cfg :=
    runOps_preserves (ModInv cap) (fun _ => True)
      (fun a op b hp _ hs => stepOp_preserves_modInv cap a b op hp hs)
      ops ⟨cap, List.replicate k 0⟩ cfg hinit (fun _ _ => trivial) hrun
  obtain ⟨hl, hu, hm⟩ := hfin
  rw [hnet] at hm
  omega

theorem roundtrip_conservation_witness :
    (Config.mk 2 [0]).cell = 2 :=
  roundtrip_conservation 1 2 [.acquire 0 2, .release 0 2] ⟨2, [0]⟩
    (by decide) (by decide) (by decide) (by decide)
